import Mathlib

/-!
Verification of the gtts text-to-speech pipeline.

Strings are modelled as `List Char`, byte buffers as `List Nat`.  The
functions below are shallow embeddings of `TextToSpeech._chunk_text`,
`TextToSpeech.generate_from_text` (src/gtts/tts.py) and
`GoogleDocsClient.extract_document_id` (src/gtts/gdocs.py).
-/

/-- Whitespace characters recognised by Python's `str.strip` and `str.split()`. -/
def isPySpace (c : Char) : Bool :=
  c = ' ' ∨ c = '\t' ∨ c = '\n' ∨ c = '\r' ∨ c = '\x0B' ∨ c = '\x0C'

/-- Python `str.strip()`: drop whitespace from both ends. -/
def pyStrip (l : List Char) : List Char :=
  ((l.dropWhile isPySpace).reverse.dropWhile isPySpace).reverse

/-- Does the list contain the two-character pattern `a` followed by `b`? -/
def hasPair (a b : Char) : List Char → Bool
  | [] => false
  | [_] => false
  | c :: d :: r => if c = a ∧ d = b then true else hasPair a b (d :: r)

/-- Does the list contain a literal `". "` (sentence boundary)? -/
def hasDotSpace (l : List Char) : Bool := hasPair '.' ' ' l

/-- Does the list contain a literal `"\n\n"` (paragraph boundary)? -/
def hasDblNewline (l : List Char) : Bool := hasPair '\n' '\n' l

/-- Does the list contain at least one non-whitespace character? -/
def hasNonSpace (l : List Char) : Bool := l.any (fun c => !(isPySpace c))

/-- Helper for the split functions: prepend a character to the first piece. -/
def consHead (c : Char) : List (List Char) → List (List Char)
  | [] => [[c]]
  | s :: ss => (c :: s) :: ss

/-- Python `text.split("\n\n")` (non-overlapping, left to right). -/
def splitParas : List Char → List (List Char)
  | [] => [[]]
  | [c] => [[c]]
  | c :: d :: r =>
    if c = '\n' ∧ d = '\n' then [] :: splitParas r
    else consHead c (splitParas (d :: r))

/-- Python `s.split("\n")`. -/
def splitNl : List Char → List (List Char)
  | [] => [[]]
  | c :: r => if c = '\n' then [] :: splitNl r else consHead c (splitNl r)

/-- Python `para.replace(". ", ".\n")` (non-overlapping, left to right). -/
def replaceDotSpace : List Char → List Char
  | [] => []
  | [c] => [c]
  | c :: d :: r =>
    if c = '.' ∧ d = ' ' then '.' :: '\n' :: replaceDotSpace r
    else c :: replaceDotSpace (d :: r)

/-- The sentence list `para.replace(". ", ".\n").split("\n")` of `_chunk_text`. -/
def sentences (p : List Char) : List (List Char) := splitNl (replaceDotSpace p)

/-- Inner sentence loop of `TextToSpeech._chunk_text` (tts.py lines 95-101).
State: chunks emitted so far and the current accumulator. -/
def sentLoop (mc : Nat) : List (List Char) → List (List Char) → List Char →
    List (List Char) × List Char
  | [], chunks, cur => (chunks, cur)
  | s :: rest, chunks, cur =>
    if cur.length + s.length + 1 > mc then
      sentLoop mc rest (if cur = [] then chunks else chunks ++ [pyStrip cur]) s
    else
      sentLoop mc rest chunks (if cur = [] then s else cur ++ ' ' :: s)

/-- Outer paragraph loop of `TextToSpeech._chunk_text` (tts.py lines 85-105). -/
def paraLoop (mc : Nat) : List (List Char) → List (List Char) → List Char →
    List (List Char) × List Char
  | [], chunks, cur => (chunks, cur)
  | p :: rest, chunks, cur =>
    if cur.length + p.length + 2 > mc then
      if p.length > mc then
        let r := sentLoop mc (sentences p)
          (if cur = [] then chunks else chunks ++ [pyStrip cur]) []
        paraLoop mc rest r.1 r.2
      else
        paraLoop mc rest (if cur = [] then chunks else chunks ++ [pyStrip cur]) p
    else
      paraLoop mc rest chunks (if cur = [] then p else cur ++ '\n' :: '\n' :: p)

/-- The chunker `TextToSpeech._chunk_text`, with `max_chars =
settings.max_chunk_chars` passed explicitly as `mc`. -/
def chunk_text (mc : Nat) (text : List Char) : List (List Char) :=
  let r := paraLoop mc (splitParas text) [] []
  if r.2 = [] then r.1 else r.1 ++ [pyStrip r.2]

/-- The unit segments of a text in the chunker's traversal order: its
paragraphs (the pieces between `"\n\n"` breaks), where each oversized
paragraph (length over `mc`, exactly the condition under which `_chunk_text`
enters its sentence branch) is replaced by its sentences (the pieces between
`". "` boundaries and lone newlines).  Chunks are built by concatenating
consecutive units, so chunk boundaries can only fall between two units. -/
def chunkUnits (mc : Nat) (text : List Char) : List (List Char) :=
  ((splitParas text).map (fun p => if p.length > mc then sentences p else [p])).flatten

/-- Accumulator-based splitting into whitespace-separated words; `cur` holds
the current word reversed (Python `str.split()` with no argument). -/
def wordsAux : List Char → List Char → List (List Char)
  | [], cur => if cur = [] then [] else [cur.reverse]
  | c :: r, cur =>
    if isPySpace c then
      if cur = [] then wordsAux r [] else cur.reverse :: wordsAux r []
    else
      wordsAux r (c :: cur)

/-- The whitespace-delimited words of a string, in order. -/
def words (l : List Char) : List (List Char) := wordsAux l []

/-- Join pieces with a separator (left inverse of the split functions). -/
def joinSep (sep : List Char) : List (List Char) → List Char
  | [] => []
  | [s] => s
  | s :: t :: r => s ++ sep ++ joinSep sep (t :: r)

/-- The synthesis loop of `generate_from_text` (tts.py lines 134-138), with the
external synthesis call modelled as a fallible function.  Returns the calls
made in order and either the collected buffers or the first error raised. -/
def driverRunE {ε : Type} (f : List Char → Except ε (List Nat)) :
    List (List Char) → List (List Char) → List (List Nat) →
    List (List Char) × Except ε (List (List Nat))
  | [], calls, bufs => (calls, Except.ok bufs)
  | c :: rest, calls, bufs =>
    match f c with
    | Except.ok b => driverRunE f rest (calls ++ [c]) (bufs ++ [b])
    | Except.error e => (calls ++ [c], Except.error e)

def u16le (n : Nat) : List Nat := [n % 256, n / 256 % 256]

def u32le (n : Nat) : List Nat :=
  [n % 256, n / 256 % 256, n / 65536 % 256, n / 16777216 % 256]

/-- Modelled from the spec: the RIFF/WAVE byte stream written by the standard
library `wave` module (tts.py lines 145-149): a 44-byte canonical PCM header
declaring the configured channel count, sample width and frame rate, followed
by the data buffer unmodified. -/
def wavBytes (nchannels sampwidth framerate : Nat) (data : List Nat) : List Nat :=
  [82, 73, 70, 70] ++ u32le (36 + data.length) ++
  [87, 65, 86, 69, 102, 109, 116, 32] ++ u32le 16 ++ u16le 1 ++
  u16le nchannels ++ u32le framerate ++
  u32le (nchannels * framerate * sampwidth) ++
  u16le (nchannels * sampwidth) ++ u16le (8 * sampwidth) ++
  [100, 97, 116, 97] ++ u32le data.length ++ data

/-- Embedding of `generate_from_text` from the chunk list on: run the
synthesis loop, then
(only if no chunk failed) join the buffers with `b"".join` and frame them as a
WAV byte stream.  On error nothing is produced. -/
def generateFromChunks {ε : Type} (f : List Char → Except ε (List Nat))
    (nchannels sampwidth framerate : Nat) (chunks : List (List Char)) :
    List (List Char) × Except ε (List Nat) :=
  let r := driverRunE f chunks [] []
  (r.1, r.2.map fun bufs => wavBytes nchannels sampwidth framerate bufs.flatten)

/-- Byte at an offset of a buffer (0 past the end). -/
def byteAt : List Nat → Nat → Nat
  | [], _ => 0
  | b :: _, 0 => b
  | _ :: r, n + 1 => byteAt r n

/-- Decode a little-endian 16-bit field at an offset. -/
def readU16 (l : List Nat) (off : Nat) : Nat :=
  byteAt l off + 256 * byteAt l (off + 1)

/-- Decode a little-endian 32-bit field at an offset. -/
def readU32 (l : List Nat) (off : Nat) : Nat :=
  byteAt l off + 256 * byteAt l (off + 1) + 65536 * byteAt l (off + 2) +
    16777216 * byteAt l (off + 3)

/-- The data payload of a WAV byte stream (everything after the 44-byte header). -/
def wavPayload (l : List Nat) : List Nat := l.drop 44

/-- Characters of the regex class `[a-zA-Z0-9_-]` in `extract_document_id`. -/
def isIdChar (c : Char) : Bool :=
  ('a' ≤ c ∧ c ≤ 'z') ∨ ('A' ≤ c ∧ c ≤ 'Z') ∨ ('0' ≤ c ∧ c ≤ '9') ∨
    c = '_' ∨ c = '-'

def docsPat : List Char := String.toList "docs.google.com/document/d/"

def drivePat : List Char := String.toList "drive.google.com/file/d/"

/-- Does `s` begin with `lit`? -/
def leadsWith : List Char → List Char → Bool
  | [], _ => true
  | _ :: _, [] => false
  | a :: as, b :: bs => if a = b then leadsWith as bs else false

/-- Model of `re.search` for the regex `lit([a-zA-Z0-9_-]+)`: scan positions left to
right; at the first position where the literal matches and at least one ID
character follows, return the greedy (maximal) capture. -/
def searchUrlId (lit : List Char) : List Char → Option (List Char)
  | [] => none
  | c :: rest =>
    if leadsWith lit (c :: rest) then
      let cap := ((c :: rest).drop lit.length).takeWhile isIdChar
      if cap = [] then searchUrlId lit rest else some cap
    else searchUrlId lit rest

/-- The part of the string the anchor lets the bare-identifier capture
cover: Python's anchor also matches just before a trailing newline. -/
def bareCore (s : List Char) : List Char :=
  if s.getLast? = some '\n' then s.dropLast else s

/-- Model of `re.search` for the anchored bare-identifier pattern (20 or
more ID characters spanning the whole string). -/
def matchBareId (s : List Char) : Option (List Char) :=
  if 20 ≤ (bareCore s).length ∧ (bareCore s).all isIdChar then some (bareCore s)
  else none

/-- Embedding of `GoogleDocsClient.extract_document_id` (gdocs.py lines
81-112): try the
three patterns in order; raise `ValueError` (modelled as `Except.error`) if
none matches. -/
def extract_document_id (s : List Char) : Except String (List Char) :=
  match searchUrlId docsPat s with
  | some i => Except.ok i
  | none =>
    match searchUrlId drivePat s with
    | some i => Except.ok i
    | none =>
      match matchBareId s with
      | some i => Except.ok i
      | none => Except.error "Could not extract document ID"

/-- The text contains `lit` immediately followed by at least one ID character
(the denotational condition for the URL regexes to match somewhere). -/
def containsLitId (lit s : List Char) : Prop :=
  ∃ pre c rest, s = pre ++ lit ++ c :: rest ∧ isIdChar c = true

/-! ### Basic lemmas about `hasPair` and `pyStrip` -/

theorem hasPair_cons (a b c : Char) (t : List Char) (h : hasPair a b t = true) :
    hasPair a b (c :: t) = true := by
  cases t with
  | nil => simp [hasPair] at h
  | cons d r =>
    rw [hasPair]
    split
    · rfl
    · exact h

theorem hasPair_append_right (a b : Char) (s t : List Char)
    (h : hasPair a b s = true) : hasPair a b (s ++ t) = true := by
  induction s with
  | nil => simp [hasPair] at h
  | cons c r ih =>
    cases r with
    | nil => simp [hasPair] at h
    | cons d r' =>
      rw [hasPair] at h
      rw [List.cons_append, List.cons_append, hasPair]
      split
      · rfl
      · rename_i hne
        rw [if_neg hne] at h
        have := ih h
        rw [List.cons_append] at this
        exact this

theorem hasPair_append_left (a b : Char) (s t : List Char)
    (h : hasPair a b t = true) : hasPair a b (s ++ t) = true := by
  induction s with
  | nil => exact h
  | cons c r ih => exact hasPair_cons a b c (r ++ t) ih

theorem hasPair_middle (a b : Char) (x u s v : List Char) (hx : x = u ++ s ++ v)
    (h : hasPair a b s = true) : hasPair a b x = true := by
  subst hx
  rw [List.append_assoc]
  exact hasPair_append_left a b u (s ++ v) (hasPair_append_right a b s v h)

/-- The stripped string sits inside the original between two runs of
whitespace. -/
theorem pyStrip_decomp (l : List Char) :
    ∃ u v, l = u ++ pyStrip l ++ v ∧ (∀ c ∈ u, isPySpace c = true) ∧
      (∀ c ∈ v, isPySpace c = true) := by
  refine ⟨l.takeWhile isPySpace,
    ((l.dropWhile isPySpace).reverse.takeWhile isPySpace).reverse, ?_, ?_, ?_⟩
  · conv_lhs => rw [← List.takeWhile_append_dropWhile isPySpace l]
    rw [List.append_assoc]
    congr 1
    conv_lhs => rw [← List.reverse_reverse (l.dropWhile isPySpace),
      ← List.takeWhile_append_dropWhile isPySpace (l.dropWhile isPySpace).reverse]
    rw [List.reverse_append]
    rfl
  · intro c hc
    exact List.mem_takeWhile_imp hc
  · intro c hc
    rw [List.mem_reverse] at hc
    exact List.mem_takeWhile_imp hc

theorem pyStrip_length_le (l : List Char) : (pyStrip l).length ≤ l.length := by
  obtain ⟨u, v, hl, -, -⟩ := pyStrip_decomp l
  conv_rhs => rw [hl]
  simp
  omega

theorem hasPair_pyStrip (a b : Char) (l : List Char)
    (h : hasPair a b (pyStrip l) = true) : hasPair a b l = true := by
  obtain ⟨u, v, hl, -, -⟩ := pyStrip_decomp l
  exact hasPair_middle a b l u (pyStrip l) v hl h

/-! ### The sentence splitter never produces a `". "` inside a sentence -/

theorem replaceDotSpace_head : ∀ l : List Char,
    (replaceDotSpace l).head? = l.head?
  | [] => rfl
  | [c] => rfl
  | c :: d :: r => by
    rw [replaceDotSpace]
    split
    · rename_i h
      simp [h.1]
    · rfl

theorem hasPair_replaceDotSpace : ∀ l : List Char,
    hasDotSpace (replaceDotSpace l) = false
  | [] => rfl
  | [c] => rfl
  | c :: d :: r => by
    rw [replaceDotSpace]
    split
    · rename_i h
      have ih := hasPair_replaceDotSpace r
      rw [hasDotSpace, hasPair, if_neg (by simp)]
      cases hr : replaceDotSpace r with
      | nil => rfl
      | cons e t =>
        rw [hasPair, if_neg (by simp)]
        rw [hasDotSpace, hr] at ih
        exact ih
    · rename_i h
      have ih := hasPair_replaceDotSpace (d :: r)
      rw [hasDotSpace] at ih ⊢
      cases hr : replaceDotSpace (d :: r) with
      | nil => simp [hasPair]
      | cons e t =>
        rw [hr] at ih
        rw [hasPair]
        have he : e = d := by
          have := replaceDotSpace_head (d :: r)
          rw [hr] at this
          simpa using this
        rw [if_neg ?_]
        · exact ih
        · rintro ⟨hc, hd⟩
          subst he hd hc
          exact h ⟨rfl, rfl⟩

/-- Splitting on newlines never returns an empty list of pieces. -/
theorem splitNl_ne_nil : ∀ l : List Char, splitNl l ≠ []
  | [] => by simp [splitNl]
  | c :: r => by
    rw [splitNl]
    split
    · simp
    · cases hr : splitNl r with
      | nil => simp [consHead]
      | cons t ts => simp [consHead]

/-- Joining a nonempty tail: unfold one separator. -/
theorem joinSep_cons (sep s : List Char) (ps : List (List Char)) (h : ps ≠ []) :
    joinSep sep (s :: ps) = s ++ sep ++ joinSep sep ps := by
  obtain ⟨t, ts, rfl⟩ := List.exists_cons_of_ne_nil h
  rw [joinSep]

/-- Splitting on newlines and rejoining with a newline restores the string. -/
theorem joinSep_splitNl : ∀ l : List Char, joinSep ['\n'] (splitNl l) = l
  | [] => rfl
  | c :: r => by
    rw [splitNl]
    have ih := joinSep_splitNl r
    have hne := splitNl_ne_nil r
    split
    · rename_i hc
      subst hc
      rw [joinSep_cons _ _ _ hne, ih]
      rfl
    · obtain ⟨t, ts, ht⟩ := List.exists_cons_of_ne_nil hne
      rw [ht, consHead]
      cases ts with
      | nil =>
        rw [joinSep]
        rw [ht, joinSep] at ih
        simp [ih]
      | cons y ys =>
        rw [joinSep]
        rw [ht, joinSep] at ih
        rw [← ih]
        simp

/-- Splitting on paragraph breaks never returns an empty list of pieces. -/
theorem splitParas_ne_nil : ∀ l : List Char, splitParas l ≠ []
  | [] => by simp [splitParas]
  | [c] => by simp [splitParas]
  | c :: d :: r => by
    rw [splitParas]
    split
    · simp
    · cases hr : splitParas (d :: r) with
      | nil => simp [consHead]
      | cons t ts => simp [consHead]

/-- Splitting on paragraph breaks and rejoining restores the string. -/
theorem joinSep_splitParas : ∀ l : List Char, joinSep ['\n', '\n'] (splitParas l) = l
  | [] => rfl
  | [c] => rfl
  | c :: d :: r => by
    rw [splitParas]
    split
    · rename_i h
      obtain ⟨hc, hd⟩ := h
      subst hc hd
      have ih := joinSep_splitParas r
      have hne := splitParas_ne_nil r
      rw [joinSep_cons _ _ _ hne, ih]
      rfl
    · have ih := joinSep_splitParas (d :: r)
      have hne := splitParas_ne_nil (d :: r)
      obtain ⟨t, ts, ht⟩ := List.exists_cons_of_ne_nil hne
      rw [ht, consHead]
      cases ts with
      | nil =>
        rw [joinSep]
        rw [ht, joinSep] at ih
        simp [ih]
      | cons y ys =>
        rw [joinSep]
        rw [ht, joinSep] at ih
        rw [← ih]
        simp

/-- A piece of a joined list sits somewhere inside the join. -/
theorem mem_joinSep (sep : List Char) : ∀ (parts : List (List Char)) (s : List Char),
    s ∈ parts → ∃ u v, joinSep sep parts = u ++ s ++ v
  | [], s, h => absurd h (List.not_mem_nil s)
  | p :: ps, s, h => by
    rcases List.mem_cons.mp h with h1 | h2
    · subst h1
      cases ps with
      | nil => exact ⟨[], [], by simp [joinSep]⟩
      | cons t ts => exact ⟨[], sep ++ joinSep sep (t :: ts), by simp [joinSep]⟩
    · have hne : ps ≠ [] := by rintro rfl; simp at h2
      obtain ⟨t, ts, rfl⟩ := List.exists_cons_of_ne_nil hne
      obtain ⟨u, v, huv⟩ := mem_joinSep sep (t :: ts) s h2
      exact ⟨p ++ sep ++ u, v, by rw [joinSep, huv]; simp⟩

/-- Membership in `splitNl` gives a middle-of-the-string decomposition. -/
theorem splitNl_mem_decomp (l s : List Char) (h : s ∈ splitNl l) :
    ∃ u v, l = u ++ s ++ v := by
  obtain ⟨u, v, huv⟩ := mem_joinSep ['\n'] (splitNl l) s h
  exact ⟨u, v, by rw [← joinSep_splitNl l, huv]⟩

/-! ### C1: chunk length bound, oversized chunks are single sentences -/

/-- Every sentence produced by the sentence splitter contains no `". "`. -/
theorem sentences_noDotSpace (p s : List Char) (h : s ∈ sentences p) :
    hasDotSpace s = false := by
  obtain ⟨u, v, huv⟩ := splitNl_mem_decomp (replaceDotSpace p) s h
  by_contra hs
  rw [Bool.not_eq_false] at hs
  have h1 : hasPair '.' ' ' (replaceDotSpace p) = true :=
    hasPair_middle '.' ' ' (replaceDotSpace p) u s v huv hs
  have h2 := hasPair_replaceDotSpace p
  unfold hasDotSpace at h2
  rw [h1] at h2
  exact Bool.true_eq_false.mp h2

/-- Stripping preserves the chunk bound invariant. -/
theorem pyStrip_bound (mc : Nat) (cur : List Char)
    (h : cur.length ≤ mc ∨ hasDotSpace cur = false) :
    (pyStrip cur).length ≤ mc ∨ hasDotSpace (pyStrip cur) = false := by
  rcases h with h | h
  · exact Or.inl (le_trans (pyStrip_length_le cur) h)
  · refine Or.inr ?_
    by_contra hs
    rw [Bool.not_eq_false] at hs
    unfold hasDotSpace at h hs
    rw [hasPair_pyStrip '.' ' ' cur hs] at h
    exact Bool.true_eq_false.mp h

/-- Invariant of the inner sentence loop: if every pending sentence has no
`". "` and the emitted chunks and the accumulator satisfy the bound
invariant, so do the loop's results. -/
theorem sentLoop_bound (mc : Nat) : ∀ (ss chunks : List (List Char)) (cur : List Char),
    (∀ s ∈ ss, hasDotSpace s = false) →
    (∀ c ∈ chunks, c.length ≤ mc ∨ hasDotSpace c = false) →
    (cur.length ≤ mc ∨ hasDotSpace cur = false) →
    (∀ c ∈ (sentLoop mc ss chunks cur).1,
        c.length ≤ mc ∨ hasDotSpace c = false) ∧
      ((sentLoop mc ss chunks cur).2.length ≤ mc ∨
        hasDotSpace (sentLoop mc ss chunks cur).2 = false)
  | [], chunks, cur, _, hch, hcur => ⟨hch, hcur⟩
  | s :: rest, chunks, cur, hss, hch, hcur => by
    have hs : hasDotSpace s = false := hss s (List.mem_cons_self s rest)
    have hrest : ∀ x ∈ rest, hasDotSpace x = false := fun x hx =>
      hss x (List.mem_cons_of_mem s hx)
    rw [sentLoop]
    split
    · refine sentLoop_bound mc rest _ s hrest ?_ (Or.inr hs)
      split
      · exact hch
      · intro c hc
        rcases List.mem_append.mp hc with h1 | h2
        · exact hch c h1
        · rw [List.mem_singleton] at h2
          subst h2
          exact pyStrip_bound mc cur hcur
    · rename_i hgt
      rw [Nat.not_lt] at hgt
      refine sentLoop_bound mc rest chunks _ hrest hch ?_
      split
      · rename_i hnil
        exact Or.inl (by omega)
      · refine Or.inl ?_
        simp only [List.length_append, List.length_cons]
        omega

/-- Invariant of the outer paragraph loop. -/
theorem paraLoop_bound (mc : Nat) : ∀ (ps chunks : List (List Char)) (cur : List Char),
    (∀ c ∈ chunks, c.length ≤ mc ∨ hasDotSpace c = false) →
    (cur.length ≤ mc ∨ hasDotSpace cur = false) →
    (∀ c ∈ (paraLoop mc ps chunks cur).1,
        c.length ≤ mc ∨ hasDotSpace c = false) ∧
      ((paraLoop mc ps chunks cur).2.length ≤ mc ∨
        hasDotSpace (paraLoop mc ps chunks cur).2 = false)
  | [], chunks, cur, hch, hcur => ⟨hch, hcur⟩
  | p :: rest, chunks, cur, hch, hcur => by
    have hch1 : ∀ c ∈ (if cur = [] then chunks else chunks ++ [pyStrip cur]),
        c.length ≤ mc ∨ hasDotSpace c = false := by
      split
      · exact hch
      · intro c hc
        rcases List.mem_append.mp hc with h1 | h2
        · exact hch c h1
        · rw [List.mem_singleton] at h2
          subst h2
          exact pyStrip_bound mc cur hcur
    rw [paraLoop]
    split
    · split
      · have hinner := sentLoop_bound mc (sentences p) _ []
          (fun s hs => sentences_noDotSpace p s hs) hch1
          (Or.inl (Nat.zero_le mc))
        exact paraLoop_bound mc rest _ _ hinner.1 hinner.2
      · rename_i hple
        rw [Nat.not_lt] at hple
        exact paraLoop_bound mc rest _ p hch1 (Or.inl hple)
    · rename_i hfits
      rw [Nat.not_lt] at hfits
      refine paraLoop_bound mc rest chunks _ hch ?_
      split
      · exact Or.inl (by omega)
      · refine Or.inl ?_
        simp only [List.length_append, List.length_cons]
        omega

/-- C1: every chunk returned by the chunker has length at most `max_chars`,
except that an oversized chunk must be a single sentence — a segment
containing no `". "` boundary. -/
theorem chunk_len_bound (mc : Nat) (text : List Char) (c : List Char)
    (hc : c ∈ chunk_text mc text) :
    c.length ≤ mc ∨ hasDotSpace c = false := by
  unfold chunk_text at hc
  simp only [] at hc
  have h := paraLoop_bound mc (splitParas text) [] []
    (fun c hc => absurd hc (List.not_mem_nil c)) (Or.inl (Nat.zero_le mc))
  split at hc
  · exact h.1 c hc
  · rcases List.mem_append.mp hc with h1 | h2
    · exact h.1 c h1
    · rw [List.mem_singleton] at h2
      subst h2
      exact pyStrip_bound mc _ h.2

/-- Witness for C1 at a concrete oversized single-sentence input. -/
theorem chunk_len_bound_witness :
    (['a', 'a', 'a', 'a', 'a'] : List Char).length ≤ 3 ∨
      hasDotSpace ['a', 'a', 'a', 'a', 'a'] = false :=
  chunk_len_bound 3 ['a', 'a', 'a', 'a', 'a'] ['a', 'a', 'a', 'a', 'a'] (by decide)

/-! ### C2: the chunker preserves the whitespace-delimited words -/

theorem wordsAux_append_space (sp : Char) (hsp : isPySpace sp = true) :
    ∀ (a b cur : List Char),
      wordsAux (a ++ sp :: b) cur = wordsAux a cur ++ wordsAux b []
  | [], b, cur => by
    rw [List.nil_append, wordsAux, wordsAux, if_pos hsp]
    split
    · simp
    · simp
  | c :: a', b, cur => by
    rw [List.cons_append, wordsAux, wordsAux]
    split
    · split
      · exact wordsAux_append_space sp hsp a' b []
      · rw [wordsAux_append_space sp hsp a' b []]
        simp
    · exact wordsAux_append_space sp hsp a' b (c :: cur)

theorem words_append_space (sp : Char) (hsp : isPySpace sp = true)
    (a b : List Char) : words (a ++ sp :: b) = words a ++ words b :=
  wordsAux_append_space sp hsp a b []

theorem words_cons_space (sp : Char) (hsp : isPySpace sp = true)
    (b : List Char) : words (sp :: b) = words b := by
  rw [words, wordsAux, if_pos hsp, if_pos rfl, words]

theorem words_allspace (t : List Char) (ht : ∀ c ∈ t, isPySpace c = true) :
    words t = [] := by
  induction t with
  | nil => rfl
  | cons c r ih =>
    rw [words_cons_space c (ht c (List.mem_cons_self c r)) r]
    exact ih fun x hx => ht x (List.mem_cons_of_mem c hx)

theorem words_append_trailing (a t : List Char)
    (ht : ∀ c ∈ t, isPySpace c = true) : words (a ++ t) = words a := by
  cases t with
  | nil => rw [List.append_nil]
  | cons sp t' =>
    rw [words_append_space sp (ht sp (List.mem_cons_self sp t')) a t',
      words_allspace t' fun x hx => ht x (List.mem_cons_of_mem sp hx),
      List.append_nil]

theorem words_append_leading (t a : List Char)
    (ht : ∀ c ∈ t, isPySpace c = true) : words (t ++ a) = words a := by
  induction t with
  | nil => rw [List.nil_append]
  | cons sp t' ih =>
    rw [List.cons_append, words_cons_space sp (ht sp (List.mem_cons_self sp t'))]
    exact ih fun x hx => ht x (List.mem_cons_of_mem sp hx)

theorem words_pyStrip (l : List Char) : words (pyStrip l) = words l := by
  obtain ⟨u, v, hl, hu, hv⟩ := pyStrip_decomp l
  conv_rhs => rw [hl]
  rw [List.append_assoc, words_append_leading u _ hu,
    words_append_trailing _ v hv]

theorem words_joinSep (sp : Char) (sep : List Char) (hsp : isPySpace sp = true)
    (hsep : ∀ c ∈ sep, isPySpace c = true) :
    ∀ ps : List (List Char),
      words (joinSep (sp :: sep) ps) = (ps.map words).flatten
  | [] => rfl
  | [s] => by
    rw [joinSep]
    simp
  | s :: t :: r => by
    rw [joinSep, List.append_assoc, List.cons_append, words_append_space sp hsp,
      words_append_leading sep _ hsep, words_joinSep sp sep hsp hsep (t :: r)]
    simp

theorem wordsAux_replaceDotSpace : ∀ (l cur : List Char),
    wordsAux (replaceDotSpace l) cur = wordsAux l cur
  | [], cur => rfl
  | [c], cur => rfl
  | c :: d :: r, cur => by
    rw [replaceDotSpace]
    split
    · rename_i h
      obtain ⟨hc, hd⟩ := h
      subst hc hd
      rw [wordsAux, if_neg (by decide), wordsAux, if_pos (by decide),
        if_neg (by simp), wordsAux, if_neg (by decide), wordsAux,
        if_pos (by decide), if_neg (by simp)]
      rw [wordsAux_replaceDotSpace r []]
    · rw [wordsAux, wordsAux]
      split
      · split
        · exact wordsAux_replaceDotSpace (d :: r) []
        · rw [wordsAux_replaceDotSpace (d :: r) []]
      · exact wordsAux_replaceDotSpace (d :: r) (c :: cur)

theorem words_replaceDotSpace (l : List Char) :
    words (replaceDotSpace l) = words l :=
  wordsAux_replaceDotSpace l []

/-- The words of a paragraph are the concatenated words of its sentences. -/
theorem words_sentences (p : List Char) :
    ((sentences p).map words).flatten = words p := by
  rw [sentences, ← words_joinSep '\n' [] (by decide) (by simp),
    joinSep_splitNl, words_replaceDotSpace]

/-- The words of a text are the concatenated words of its paragraphs. -/
theorem words_splitParas (l : List Char) :
    ((splitParas l).map words).flatten = words l := by
  rw [← words_joinSep '\n' ['\n'] (by decide) (by decide), joinSep_splitParas]

theorem words_nil : words [] = ([] : List (List Char)) := rfl

/-- Invariant of the inner sentence loop: emitted words plus pending words
equal the starting words plus the words of the pending sentences. -/
theorem sentLoop_words (mc : Nat) : ∀ (ss chunks : List (List Char)) (cur : List Char),
    (((sentLoop mc ss chunks cur).1.map words).flatten ++
        words (sentLoop mc ss chunks cur).2) =
      ((chunks.map words).flatten ++ words cur ++ ((ss.map words).flatten))
  | [], chunks, cur => by
    rw [sentLoop]
    simp
  | s :: rest, chunks, cur => by
    rw [sentLoop]
    split
    · rw [sentLoop_words mc rest _ s]
      split
      · rename_i hnil
        subst hnil
        simp [words_nil]
      · simp [words_pyStrip]
    · rw [sentLoop_words mc rest chunks _]
      split
      · rename_i hnil
        subst hnil
        simp [words_nil]
      · rw [words_append_space ' ' (by decide) cur s]
        simp

/-- Invariant of the outer paragraph loop: emitted words plus pending words
equal the starting words plus the words of the pending paragraphs. -/
theorem paraLoop_words (mc : Nat) : ∀ (ps chunks : List (List Char)) (cur : List Char),
    (((paraLoop mc ps chunks cur).1.map words).flatten ++
        words (paraLoop mc ps chunks cur).2) =
      ((chunks.map words).flatten ++ words cur ++ ((ps.map words).flatten))
  | [], chunks, cur => by
    rw [paraLoop]
    simp
  | p :: rest, chunks, cur => by
    rw [paraLoop]
    split
    · split
      · simp only []
        rw [paraLoop_words mc rest _ _, sentLoop_words mc (sentences p) _ [],
          words_nil, List.append_nil, words_sentences]
        split
        · rename_i hnil
          subst hnil
          simp [words_nil]
        · simp [words_pyStrip, List.append_assoc]
      · rw [paraLoop_words mc rest _ p]
        split
        · rename_i hnil
          subst hnil
          simp [words_nil]
        · simp [words_pyStrip, List.append_assoc]
    · rw [paraLoop_words mc rest chunks _]
      split
      · rename_i hnil
        subst hnil
        simp [words_nil]
      · rw [words_append_space '\n' (by decide) cur ('\n' :: p),
          words_cons_space '\n' (by decide) p]
        simp [List.append_assoc]

/-- C2: the concatenated word sequences of the chunks equal the word sequence
of the input text — no word is lost, duplicated or reordered. -/
theorem chunk_words (mc : Nat) (text : List Char) :
    ((chunk_text mc text).map words).flatten = words text := by
  have h := paraLoop_words mc (splitParas text) [] []
  rw [words_nil] at h
  simp only [List.map_nil, List.flatten_nil, List.nil_append] at h
  unfold chunk_text
  simp only []
  split
  · rename_i h2
    rw [h2, words_nil, List.append_nil] at h
    rw [h, words_splitParas]
  · rw [List.map_append, List.flatten_append]
    simp only [List.map_cons, List.map_nil, List.flatten_cons, List.flatten_nil]
    rw [List.append_nil, words_pyStrip, h, words_splitParas]

/-! ### C3, C4, C7: the synthesis driver -/

theorem driverRunE_ok {ε : Type} (f : List Char → List Nat) :
    ∀ (chunks calls : List (List Char)) (bufs : List (List Nat)),
      driverRunE (ε := ε) (fun c => Except.ok (f c)) chunks calls bufs =
        (calls ++ chunks, Except.ok (bufs ++ chunks.map f))
  | [], calls, bufs => by
    rw [driverRunE]
    simp
  | c :: rest, calls, bufs => by
    rw [driverRunE]
    simp only []
    rw [driverRunE_ok f rest (calls ++ [c]) (bufs ++ [f c])]
    simp

/-- C3: for every synthesis function and chunk list the driver calls the
function once per chunk, in chunk order, and the combined buffer is the
in-order concatenation of the per-chunk results. -/
theorem driver_order_concat (f : List Char → List Nat) (chunks : List (List Char)) :
    driverRunE (fun c => Except.ok (f c) : List Char → Except Unit (List Nat))
        chunks [] [] = (chunks, Except.ok (chunks.map f)) ∧
      (driverRunE (fun c => Except.ok (f c) : List Char → Except Unit (List Nat))
          chunks [] []).2.map List.flatten = Except.ok ((chunks.map f).flatten) := by
  have h := driverRunE_ok (ε := Unit) f chunks [] []
  rw [List.nil_append] at h
  refine ⟨by rw [h]; simp, ?_⟩
  rw [h]
  rfl

theorem driverRunE_abort {ε : Type} (f : List Char → Except ε (List Nat))
    (e : ε) (ck : List Char) :
    ∀ (pre post calls : List (List Char)) (bufs : List (List Nat)),
      (∀ c ∈ pre, ∃ b, f c = Except.ok b) → f ck = Except.error e →
      driverRunE f (pre ++ ck :: post) calls bufs = (calls ++ pre ++ [ck], Except.error e)
  | [], post, calls, bufs, _, hck => by
    rw [List.nil_append, driverRunE, hck]
    simp
  | c :: pre', post, calls, bufs, hpre, hck => by
    obtain ⟨b, hb⟩ := hpre c (List.mem_cons_self c pre')
    rw [List.cons_append, driverRunE, hb]
    simp only []
    rw [driverRunE_abort f e ck pre' post (calls ++ [c]) (bufs ++ [b])
      (fun x hx => hpre x (List.mem_cons_of_mem c hx)) hck]
    simp

/-- C4: if synthesis fails on the k-th chunk, the pipeline makes no call for
any later chunk, produces no WAV output, and the buffers generated for the
earlier chunks are discarded (the error is the entire result). -/
theorem driver_abort {ε : Type} (f : List Char → Except ε (List Nat))
    (nch w r : Nat) (pre post : List (List Char)) (ck : List Char) (e : ε)
    (hpre : ∀ c ∈ pre, ∃ b, f c = Except.ok b) (hck : f ck = Except.error e) :
    generateFromChunks f nch w r (pre ++ ck :: post) = (pre ++ [ck], Except.error e) := by
  unfold generateFromChunks
  simp only []
  rw [driverRunE_abort f e ck pre post [] [] hpre hck]
  simp only [List.nil_append]
  rfl

/-- Witness for C4: 3 chunks, the stub fails on the second; only chunks 1 and
2 are called and the run produces only the error. -/
theorem driver_abort_witness :
    generateFromChunks
        (fun c => if c = ['a'] then Except.ok [0] else Except.error 7)
        1 2 24000 [['a'], ['b'], ['c']] = ([['a'], ['b']], Except.error 7) :=
  driver_abort (fun c => if c = ['a'] then Except.ok [0] else Except.error 7)
    1 2 24000 [['a']] [['c']] ['b'] 7
    (fun c hc => by
      rw [List.mem_singleton] at hc
      subst hc
      exact ⟨[0], rfl⟩)
    rfl

theorem chunk_text_nil (mc : Nat) : chunk_text mc [] = [] := by
  have h : paraLoop mc (splitParas []) [] [] = ([], []) := by
    simp only [splitParas]
    rw [paraLoop]
    split
    · rw [if_neg (by simp), paraLoop]
      rfl
    · rw [paraLoop]
      rfl
  unfold chunk_text
  rw [h]
  rfl

/-- C7: the chunker returns the empty sequence on the empty string, and
consequently the driver makes zero synthesis calls for empty input. -/
theorem chunk_empty_zero_calls {ε : Type} (f : List Char → Except ε (List Nat))
    (mc : Nat) :
    chunk_text mc [] = [] ∧ (driverRunE f (chunk_text mc []) [] []).1 = [] := by
  have h := chunk_text_nil mc
  exact ⟨h, by rw [h]; rfl⟩

/-! ### C5: the WAV container declares the parameters and keeps the payload -/

theorem byteAt_shift (l m : List Nat) : ∀ k, byteAt (l ++ m) (l.length + k) = byteAt m k := by
  induction l with
  | nil => intro k; simp [byteAt]
  | cons x l' ih =>
    intro k
    rw [List.cons_append, List.length_cons]
    have : l'.length + 1 + k = (l'.length + k) + 1 := by omega
    rw [this, byteAt]
    exact ih k

theorem readU16_at (pre rest : List Nat) (x : Nat) (hx : x < 65536) :
    readU16 (pre ++ (u16le x ++ rest)) pre.length = x := by
  unfold readU16
  have h0 := byteAt_shift pre (u16le x ++ rest) 0
  have h1 := byteAt_shift pre (u16le x ++ rest) 1
  rw [Nat.add_zero] at h0
  rw [h0, h1]
  unfold u16le
  simp only [List.cons_append, byteAt]
  omega

theorem readU32_at (pre rest : List Nat) (x : Nat) (hx : x < 4294967296) :
    readU32 (pre ++ (u32le x ++ rest)) pre.length = x := by
  unfold readU32
  have h0 := byteAt_shift pre (u32le x ++ rest) 0
  have h1 := byteAt_shift pre (u32le x ++ rest) 1
  have h2 := byteAt_shift pre (u32le x ++ rest) 2
  have h3 := byteAt_shift pre (u32le x ++ rest) 3
  rw [Nat.add_zero] at h0
  rw [h0, h1, h2, h3]
  unfold u32le
  simp only [List.cons_append, byteAt]
  omega

theorem drop_shift {α : Type} (l m : List α) : (l ++ m).drop l.length = m := by
  induction l with
  | nil => rfl
  | cons x l' ih => simp [ih]

theorem readU16_split (l pre rest : List Nat) (x n : Nat) (hx : x < 65536)
    (hsplit : l = pre ++ (u16le x ++ rest)) (hn : pre.length = n) :
    readU16 l n = x := by
  subst hsplit hn
  exact readU16_at pre rest x hx

theorem readU32_split (l pre rest : List Nat) (x n : Nat) (hx : x < 4294967296)
    (hsplit : l = pre ++ (u32le x ++ rest)) (hn : pre.length = n) :
    readU32 l n = x := by
  subst hsplit hn
  exact readU32_at pre rest x hx

theorem drop_split {α : Type} (l pre rest : List α) (n : Nat)
    (hsplit : l = pre ++ rest) (hn : pre.length = n) : l.drop n = rest := by
  subst hsplit hn
  exact drop_shift pre rest

/-- C5: the WAV byte stream produced for a raw PCM buffer declares exactly the
configured channel count, frame rate and bits per sample (8 * sample width),
declares the payload length, and carries the payload bytes unmodified. -/
theorem wav_header_decodes (nch w r : Nat) (data : List Nat)
    (hmul : data.length % (nch * w) = 0)
    (hch : nch < 65536) (hr : r < 4294967296) (hw : 8 * w < 65536)
    (hlen : data.length < 4294967296) :
    readU16 (wavBytes nch w r data) 22 = nch ∧
      readU32 (wavBytes nch w r data) 24 = r ∧
      readU16 (wavBytes nch w r data) 34 = 8 * w ∧
      readU32 (wavBytes nch w r data) 40 = data.length ∧
      wavPayload (wavBytes nch w r data) = data := by
  refine ⟨?_, ?_, ?_, ?_, ?_⟩
  · exact readU16_split _
      ([82, 73, 70, 70] ++ u32le (36 + data.length) ++
        [87, 65, 86, 69, 102, 109, 116, 32] ++ u32le 16 ++ u16le 1)
      (u32le r ++ u32le (nch * r * w) ++ u16le (nch * w) ++ u16le (8 * w) ++
        [100, 97, 116, 97] ++ u32le data.length ++ data)
      nch 22 hch (by rw [wavBytes]; simp [List.append_assoc]) (by norm_num [u32le, u16le])
  · exact readU32_split _
      ([82, 73, 70, 70] ++ u32le (36 + data.length) ++
        [87, 65, 86, 69, 102, 109, 116, 32] ++ u32le 16 ++ u16le 1 ++ u16le nch)
      (u32le (nch * r * w) ++ u16le (nch * w) ++ u16le (8 * w) ++
        [100, 97, 116, 97] ++ u32le data.length ++ data)
      r 24 hr (by rw [wavBytes]; simp [List.append_assoc]) (by norm_num [u32le, u16le])
  · exact readU16_split _
      ([82, 73, 70, 70] ++ u32le (36 + data.length) ++
        [87, 65, 86, 69, 102, 109, 116, 32] ++ u32le 16 ++ u16le 1 ++ u16le nch ++
        u32le r ++ u32le (nch * r * w) ++ u16le (nch * w))
      ([100, 97, 116, 97] ++ u32le data.length ++ data)
      (8 * w) 34 hw (by rw [wavBytes]; simp [List.append_assoc]) (by norm_num [u32le, u16le])
  · exact readU32_split _
      ([82, 73, 70, 70] ++ u32le (36 + data.length) ++
        [87, 65, 86, 69, 102, 109, 116, 32] ++ u32le 16 ++ u16le 1 ++ u16le nch ++
        u32le r ++ u32le (nch * r * w) ++ u16le (nch * w) ++ u16le (8 * w) ++
        [100, 97, 116, 97])
      data data.length 40 hlen (by rw [wavBytes]; simp [List.append_assoc]) (by norm_num [u32le, u16le])
  · exact drop_split _
      ([82, 73, 70, 70] ++ u32le (36 + data.length) ++
        [87, 65, 86, 69, 102, 109, 116, 32] ++ u32le 16 ++ u16le 1 ++ u16le nch ++
        u32le r ++ u32le (nch * r * w) ++ u16le (nch * w) ++ u16le (8 * w) ++
        [100, 97, 116, 97] ++ u32le data.length)
      data 44 (by rw [wavBytes]) (by norm_num [u32le, u16le])

/-- Witness for C5 at the spec's end-to-end example parameters: 24 kHz, mono,
16-bit, a 2-byte payload. -/
theorem wav_header_decodes_witness :
    readU16 (wavBytes 1 2 24000 [0, 1]) 22 = 1 ∧
      readU32 (wavBytes 1 2 24000 [0, 1]) 24 = 24000 ∧
      readU16 (wavBytes 1 2 24000 [0, 1]) 34 = 16 ∧
      readU32 (wavBytes 1 2 24000 [0, 1]) 40 = 2 ∧
      wavPayload (wavBytes 1 2 24000 [0, 1]) = [0, 1] :=
  wav_header_decodes 1 2 24000 [0, 1] (by decide) (by decide) (by decide)
    (by decide) (by decide)

/-! ### C6: chunk non-emptiness (fails on whitespace-only input) -/

/-- C6 counterexample: the whitespace-only input `" "` yields the single chunk
`""` — the returned list contains an empty string. -/
theorem chunk_nonempty_cex : [] ∈ chunk_text 20000 [' '] := by decide

theorem hasNonSpace_append (a b : List Char) :
    hasNonSpace (a ++ b) = (hasNonSpace a || hasNonSpace b) := by
  simp [hasNonSpace]

theorem hasNonSpace_cons (c : Char) (t : List Char) :
    hasNonSpace (c :: t) = (!(isPySpace c) || hasNonSpace t) := by
  simp [hasNonSpace]

theorem pyStrip_ne_nil (l : List Char) (h : hasNonSpace l = true) :
    pyStrip l ≠ [] := by
  intro hnil
  obtain ⟨u, v, hl, hu, hv⟩ := pyStrip_decomp l
  rw [hnil] at hl
  rw [hl, hasNonSpace_append, hasNonSpace_append] at h
  rcases Bool.or_eq_true_iff.mp h with h1 | h2
  · rcases Bool.or_eq_true_iff.mp h1 with h3 | h4
    · obtain ⟨c, hc, hcs⟩ := List.any_eq_true.mp h3
      rw [hu c hc] at hcs
      exact Bool.false_ne_true hcs
    · obtain ⟨c, hc, hcs⟩ := List.any_eq_true.mp h4
      exact absurd hc (List.not_mem_nil c)
  · obtain ⟨c, hc, hcs⟩ := List.any_eq_true.mp h2
    rw [hv c hc] at hcs
    exact Bool.false_ne_true hcs

theorem sentLoop_nonempty (mc : Nat) : ∀ (ss chunks : List (List Char)) (cur : List Char),
    (∀ s ∈ ss, hasNonSpace s = true) →
    (∀ c ∈ chunks, c ≠ []) →
    (cur = [] ∨ hasNonSpace cur = true) →
    (∀ c ∈ (sentLoop mc ss chunks cur).1, c ≠ []) ∧
      ((sentLoop mc ss chunks cur).2 = [] ∨
        hasNonSpace (sentLoop mc ss chunks cur).2 = true)
  | [], chunks, cur, _, hch, hcur => ⟨hch, hcur⟩
  | s :: rest, chunks, cur, hss, hch, hcur => by
    have hs : hasNonSpace s = true := hss s (List.mem_cons_self s rest)
    have hrest : ∀ x ∈ rest, hasNonSpace x = true := fun x hx =>
      hss x (List.mem_cons_of_mem s hx)
    rw [sentLoop]
    split
    · refine sentLoop_nonempty mc rest _ s hrest ?_ (Or.inr hs)
      split
      · exact hch
      · rename_i hnil
        intro c hc
        rcases List.mem_append.mp hc with h1 | h2
        · exact hch c h1
        · rw [List.mem_singleton] at h2
          subst h2
          rcases hcur with h3 | h3
          · exact absurd h3 hnil
          · exact pyStrip_ne_nil cur h3
    · refine sentLoop_nonempty mc rest chunks _ hrest hch ?_
      split
      · exact Or.inr hs
      · refine Or.inr ?_
        rw [hasNonSpace_append, hasNonSpace_cons, hs]
        simp

theorem paraLoop_nonempty (mc : Nat) : ∀ (ps chunks : List (List Char)) (cur : List Char),
    (∀ p ∈ ps, hasNonSpace p = true ∧ ∀ s ∈ sentences p, hasNonSpace s = true) →
    (∀ c ∈ chunks, c ≠ []) →
    (cur = [] ∨ hasNonSpace cur = true) →
    (∀ c ∈ (paraLoop mc ps chunks cur).1, c ≠ []) ∧
      ((paraLoop mc ps chunks cur).2 = [] ∨
        hasNonSpace (paraLoop mc ps chunks cur).2 = true)
  | [], chunks, cur, _, hch, hcur => ⟨hch, hcur⟩
  | p :: rest, chunks, cur, hps, hch, hcur => by
    have hp := hps p (List.mem_cons_self p rest)
    have hrest : ∀ x ∈ rest, hasNonSpace x = true ∧
        ∀ s ∈ sentences x, hasNonSpace s = true := fun x hx =>
      hps x (List.mem_cons_of_mem p hx)
    have hch1 : ∀ c ∈ (if cur = [] then chunks else chunks ++ [pyStrip cur]), c ≠ [] := by
      split
      · exact hch
      · rename_i hnil
        intro c hc
        rcases List.mem_append.mp hc with h1 | h2
        · exact hch c h1
        · rw [List.mem_singleton] at h2
          subst h2
          rcases hcur with h3 | h3
          · exact absurd h3 hnil
          · exact pyStrip_ne_nil cur h3
    rw [paraLoop]
    split
    · split
      · have hinner := sentLoop_nonempty mc (sentences p) _ [] hp.2 hch1 (Or.inl rfl)
        exact paraLoop_nonempty mc rest _ _ hrest hinner.1 hinner.2
      · exact paraLoop_nonempty mc rest _ p hrest hch1 (Or.inr hp.1)
    · refine paraLoop_nonempty mc rest chunks _ hrest hch ?_
      split
      · exact Or.inr hp.1
      · refine Or.inr ?_
        rw [hasNonSpace_append, hasNonSpace_cons, hasNonSpace_cons, hp.1]
        simp

/-- C6 amended: every chunk is non-empty provided every paragraph segment and
every sentence segment of the input contains a non-whitespace character
(otherwise a whitespace-only segment is stripped into an empty chunk, as in
the counterexample `chunk(" ") = [""]`). -/
theorem chunk_nonempty_amended (mc : Nat) (text : List Char)
    (h : ∀ p ∈ splitParas text, hasNonSpace p = true ∧
      ∀ s ∈ sentences p, hasNonSpace s = true) :
    ∀ c ∈ chunk_text mc text, c ≠ [] := by
  intro c hc
  unfold chunk_text at hc
  simp only [] at hc
  have hinv := paraLoop_nonempty mc (splitParas text) [] [] h
    (fun x hx => absurd hx (List.not_mem_nil x)) (Or.inl rfl)
  split at hc
  · exact hinv.1 c hc
  · rename_i hnil
    rcases List.mem_append.mp hc with h1 | h2
    · exact hinv.1 c h1
    · rw [List.mem_singleton] at h2
      subst h2
      rcases hinv.2 with h3 | h3
      · exact absurd h3 hnil
      · exact pyStrip_ne_nil _ h3

/-- Witness for the amended C6 at a concrete input. -/
theorem chunk_nonempty_amended_witness :
    ['a', 'b'] ∈ chunk_text 1 ['a', 'b'] ∧ (['a', 'b'] : List Char) ≠ [] :=
  ⟨by decide, chunk_nonempty_amended 1 ['a', 'b'] (by decide) ['a', 'b'] (by decide)⟩

/-! ### C8: single-chunk behaviour for short texts (fails on the empty string) -/

/-- C8 counterexample: the empty string satisfies the claim's hypotheses
(length at most `max_chars`, no paragraph break) yet the chunker returns zero
chunks, not one chunk equal to the stripped input. -/
theorem single_chunk_cex : ¬ (chunk_text 20000 [] = [pyStrip []]) := by decide

theorem hasPair_tail (a b c : Char) (t : List Char)
    (h : hasPair a b (c :: t) = false) : hasPair a b t = false := by
  by_contra h2
  rw [Bool.not_eq_false] at h2
  rw [hasPair_cons a b c t h2] at h
  exact Bool.true_eq_false.mp h

theorem splitParas_single : ∀ l : List Char, hasDblNewline l = false →
    splitParas l = [l]
  | [], _ => rfl
  | [c], _ => rfl
  | c :: d :: r, h => by
    unfold hasDblNewline at h
    rw [hasPair] at h
    have hcond : ¬(c = '\n' ∧ d = '\n') := by
      intro hcd
      rw [if_pos hcd] at h
      exact Bool.true_eq_false.mp h
    rw [if_neg hcond] at h
    rw [splitParas, if_neg hcond, splitParas_single (d :: r) h, consHead]

/-- C8 amended: for every NON-EMPTY text of length at most `max_chars` with
no paragraph break, the chunker returns exactly one chunk, the stripped
input. -/
theorem single_chunk_amended (mc : Nat) (text : List Char) (hne : text ≠ [])
    (hlen : text.length ≤ mc) (hnb : hasDblNewline text = false) :
    chunk_text mc text = [pyStrip text] := by
  have hpara : paraLoop mc [text] [] [] = ([], text) := by
    rw [paraLoop]
    split
    · rw [if_neg (show ¬ text.length > mc by omega), paraLoop]
      simp
    · rw [paraLoop]
      simp
  unfold chunk_text
  simp only [splitParas_single text hnb, hpara]
  simp [hne]

/-- Witness for the amended C8 at a concrete input. -/
theorem single_chunk_amended_witness :
    chunk_text 20000 ['h', 'i'] = [pyStrip ['h', 'i']] :=
  single_chunk_amended 20000 ['h', 'i'] (by decide) (by decide) (by decide)

/-! ### C9: chunk boundaries (the code also splits at lone newlines) -/

/-- C9 counterexample: `"aa\nbb"` with `max_chars = 3` is split into two
chunks although the text contains neither a paragraph break nor a `". "`
sentence boundary — the boundary falls at a lone newline. -/
theorem boundary_cex :
    2 ≤ (chunk_text 3 ['a', 'a', '\n', 'b', 'b']).length ∧
      hasDblNewline ['a', 'a', '\n', 'b', 'b'] = false ∧
      hasDotSpace ['a', 'a', '\n', 'b', 'b'] = false := by decide

theorem hasPair_mem (a b : Char) : ∀ l : List Char, hasPair a b l = true → a ∈ l
  | [], h => by simp [hasPair] at h
  | [c], h => by simp [hasPair] at h
  | c :: d :: r, h => by
    rw [hasPair] at h
    by_cases hcd : c = a ∧ d = b
    · rw [hcd.1]
      exact List.mem_cons_self a (d :: r)
    · rw [if_neg hcd] at h
      exact List.mem_cons_of_mem c (hasPair_mem a b (d :: r) h)

theorem replaceDotSpace_id : ∀ l : List Char, hasDotSpace l = false →
    replaceDotSpace l = l
  | [], _ => rfl
  | [c], _ => rfl
  | c :: d :: r, h => by
    unfold hasDotSpace at h
    rw [hasPair] at h
    have hcond : ¬(c = '.' ∧ d = ' ') := by
      intro hcd
      rw [if_pos hcd] at h
      exact Bool.true_eq_false.mp h
    rw [if_neg hcond] at h
    rw [replaceDotSpace, if_neg hcond, replaceDotSpace_id (d :: r) h]

theorem splitNl_single : ∀ l : List Char, '\n' ∉ l → splitNl l = [l]
  | [], _ => rfl
  | c :: r, h => by
    have hc : ¬ c = '\n' := fun hc => h (hc ▸ List.mem_cons_self c r)
    have hr : '\n' ∉ r := fun hr => h (List.mem_cons_of_mem c hr)
    rw [splitNl, if_neg hc, splitNl_single r hr, consHead]

/-- Block invariant of the inner sentence loop: if the chunks emitted so far
correspond, in order, to consecutive blocks of the units consumed so far and
the accumulator holds the words of a pending block, then after consuming the
pending sentences the same correspondence holds, with the consumed unit list
extended by exactly those sentences. -/
theorem sentLoop_blocks (mc : Nat) : ∀ (ss chunks : List (List Char)) (cur : List Char)
    (blocks : List (List (List Char))) (pb : List (List Char)),
    List.Forall₂ (fun c b => words c = (b.map words).flatten ∧ b ≠ []) chunks blocks →
    words cur = (pb.map words).flatten →
    (cur ≠ [] → pb ≠ []) →
    ∃ (blocks2 : List (List (List Char))) (pb2 : List (List Char)),
      blocks2.flatten ++ pb2 = blocks.flatten ++ pb ++ ss ∧
      List.Forall₂ (fun c b => words c = (b.map words).flatten ∧ b ≠ [])
        (sentLoop mc ss chunks cur).1 blocks2 ∧
      words (sentLoop mc ss chunks cur).2 = (pb2.map words).flatten ∧
      ((sentLoop mc ss chunks cur).2 ≠ [] → pb2 ≠ [])
  | [], chunks, cur, blocks, pb, hfa, hw, hp => by
    rw [sentLoop]
    exact ⟨blocks, pb, by simp, hfa, hw, hp⟩
  | s :: rest, chunks, cur, blocks, pb, hfa, hw, hp => by
    rw [sentLoop]
    split
    · split
      · rename_i hnil
        subst hnil
        have hpbw : (pb.map words).flatten = [] := by
          rw [← hw]
          rfl
        obtain ⟨b2, p2, hacc, hfa2, hw2, hp2⟩ :=
          sentLoop_blocks mc rest chunks s blocks (pb ++ [s]) hfa
            (by simp [hpbw]) (fun _ => by simp)
        refine ⟨b2, p2, ?_, hfa2, hw2, hp2⟩
        rw [hacc]
        simp [List.append_assoc]
      · rename_i hnil
        obtain ⟨b2, p2, hacc, hfa2, hw2, hp2⟩ :=
          sentLoop_blocks mc rest (chunks ++ [pyStrip cur]) s (blocks ++ [pb]) [s]
            (List.rel_append hfa (List.Forall₂.cons
              ⟨by rw [words_pyStrip]; exact hw, hp hnil⟩ List.Forall₂.nil))
            (by simp) (fun _ => by simp)
        refine ⟨b2, p2, ?_, hfa2, hw2, hp2⟩
        rw [hacc]
        simp [List.append_assoc]
    · split
      · rename_i hnil
        subst hnil
        have hpbw : (pb.map words).flatten = [] := by
          rw [← hw]
          rfl
        obtain ⟨b2, p2, hacc, hfa2, hw2, hp2⟩ :=
          sentLoop_blocks mc rest chunks s blocks (pb ++ [s]) hfa
            (by simp [hpbw]) (fun _ => by simp)
        refine ⟨b2, p2, ?_, hfa2, hw2, hp2⟩
        rw [hacc]
        simp [List.append_assoc]
      · rename_i hnil
        obtain ⟨b2, p2, hacc, hfa2, hw2, hp2⟩ :=
          sentLoop_blocks mc rest chunks (cur ++ ' ' :: s) blocks (pb ++ [s]) hfa
            (by rw [words_append_space ' ' (by decide) cur s, hw]; simp)
            (fun _ => by simp)
        refine ⟨b2, p2, ?_, hfa2, hw2, hp2⟩
        rw [hacc]
        simp [List.append_assoc]

/-- Block invariant of the outer paragraph loop, over the unit segments of
the pending paragraphs (a small paragraph is one unit, an oversized one
contributes its sentences). -/
theorem paraLoop_blocks (mc : Nat) : ∀ (ps chunks : List (List Char)) (cur : List Char)
    (blocks : List (List (List Char))) (pb : List (List Char)),
    List.Forall₂ (fun c b => words c = (b.map words).flatten ∧ b ≠ []) chunks blocks →
    words cur = (pb.map words).flatten →
    (cur ≠ [] → pb ≠ []) →
    ∃ (blocks2 : List (List (List Char))) (pb2 : List (List Char)),
      blocks2.flatten ++ pb2 = blocks.flatten ++ pb ++
        ((ps.map (fun p => if p.length > mc then sentences p else [p])).flatten) ∧
      List.Forall₂ (fun c b => words c = (b.map words).flatten ∧ b ≠ [])
        (paraLoop mc ps chunks cur).1 blocks2 ∧
      words (paraLoop mc ps chunks cur).2 = (pb2.map words).flatten ∧
      ((paraLoop mc ps chunks cur).2 ≠ [] → pb2 ≠ [])
  | [], chunks, cur, blocks, pb, hfa, hw, hp => by
    rw [paraLoop]
    exact ⟨blocks, pb, by simp, hfa, hw, hp⟩
  | p :: rest, chunks, cur, blocks, pb, hfa, hw, hp => by
    rw [paraLoop]
    split
    · split
      · rename_i hbig
        simp only []
        split
        · rename_i hnil
          subst hnil
          obtain ⟨b2, p2, hacc2, hfa2, hw2, hp2⟩ :=
            sentLoop_blocks mc (sentences p) chunks [] blocks pb hfa hw hp
          obtain ⟨b3, p3, hacc3, hfa3, hw3, hp3⟩ :=
            paraLoop_blocks mc rest _ _ b2 p2 hfa2 hw2 hp2
          refine ⟨b3, p3, ?_, hfa3, hw3, hp3⟩
          rw [hacc3, hacc2]
          simp [hbig, List.append_assoc]
        · rename_i hnil
          obtain ⟨b2, p2, hacc2, hfa2, hw2, hp2⟩ :=
            sentLoop_blocks mc (sentences p) (chunks ++ [pyStrip cur]) []
              (blocks ++ [pb]) []
              (List.rel_append hfa (List.Forall₂.cons
                ⟨by rw [words_pyStrip]; exact hw, hp hnil⟩ List.Forall₂.nil))
              rfl (fun h => absurd rfl h)
          obtain ⟨b3, p3, hacc3, hfa3, hw3, hp3⟩ :=
            paraLoop_blocks mc rest _ _ b2 p2 hfa2 hw2 hp2
          refine ⟨b3, p3, ?_, hfa3, hw3, hp3⟩
          rw [hacc3, hacc2]
          simp [hbig, List.append_assoc]
      · rename_i hsmall
        split
        · rename_i hnil
          subst hnil
          have hpbw : (pb.map words).flatten = [] := by
            rw [← hw]
            rfl
          obtain ⟨b3, p3, hacc3, hfa3, hw3, hp3⟩ :=
            paraLoop_blocks mc rest chunks p blocks (pb ++ [p]) hfa
              (by simp [hpbw]) (fun _ => by simp)
          refine ⟨b3, p3, ?_, hfa3, hw3, hp3⟩
          rw [hacc3]
          simp [hsmall, List.append_assoc]
        · rename_i hnil
          obtain ⟨b3, p3, hacc3, hfa3, hw3, hp3⟩ :=
            paraLoop_blocks mc rest (chunks ++ [pyStrip cur]) p (blocks ++ [pb]) [p]
              (List.rel_append hfa (List.Forall₂.cons
                ⟨by rw [words_pyStrip]; exact hw, hp hnil⟩ List.Forall₂.nil))
              (by simp) (fun _ => by simp)
          refine ⟨b3, p3, ?_, hfa3, hw3, hp3⟩
          rw [hacc3]
          simp [hsmall, List.append_assoc]
    · rename_i hfits
      have hsmall : ¬ p.length > mc := by
        omega
      split
      · rename_i hnil
        subst hnil
        have hpbw : (pb.map words).flatten = [] := by
          rw [← hw]
          rfl
        obtain ⟨b3, p3, hacc3, hfa3, hw3, hp3⟩ :=
          paraLoop_blocks mc rest chunks p blocks (pb ++ [p]) hfa
            (by simp [hpbw]) (fun _ => by simp)
        refine ⟨b3, p3, ?_, hfa3, hw3, hp3⟩
        rw [hacc3]
        simp [hsmall, List.append_assoc]
      · rename_i hnil
        obtain ⟨b3, p3, hacc3, hfa3, hw3, hp3⟩ :=
          paraLoop_blocks mc rest chunks (cur ++ '\n' :: '\n' :: p) blocks (pb ++ [p]) hfa
            (by rw [words_append_space '\n' (by decide) cur ('\n' :: p),
              words_cons_space '\n' (by decide) p, hw]; simp)
            (fun _ => by simp)
        refine ⟨b3, p3, ?_, hfa3, hw3, hp3⟩
        rw [hacc3]
        simp [hsmall, List.append_assoc]

/-- C9 amended: chunk boundaries occur only at paragraph breaks, `". "`
sentence boundaries, or lone newline characters, and never inside a word:
the returned chunk list corresponds one-to-one, in order, to consecutive
non-empty blocks partitioning the text's unit-segment list (paragraphs, with
oversized paragraphs replaced by their sentences), each chunk carrying
exactly the words of its block, with at most a trailing run of wordless
units left unemitted.  Hence every boundary between two consecutive chunks
lies between two consecutive units of the original text. -/
theorem boundary_amended (mc : Nat) (text : List Char) :
    ∃ (blocks : List (List (List Char))) (dropped : List (List Char)),
      blocks.flatten ++ dropped = chunkUnits mc text ∧
      (∀ u ∈ dropped, words u = []) ∧
      List.Forall₂ (fun c b => words c = (b.map words).flatten ∧ b ≠ [])
        (chunk_text mc text) blocks := by
  obtain ⟨b2, p2, hacc, hfa, hw, hp⟩ :=
    paraLoop_blocks mc (splitParas text) [] [] [] []
      List.Forall₂.nil rfl (fun h => absurd rfl h)
  unfold chunk_text chunkUnits
  simp only []
  simp only [List.flatten_nil, List.nil_append] at hacc
  split
  · rename_i hnil
    refine ⟨b2, p2, hacc, ?_, hfa⟩
    intro u hu
    have hflat : (p2.map words).flatten = [] := by
      rw [← hw, hnil]
      rfl
    have := List.flatten_eq_nil_iff.mp hflat (words u) (List.mem_map_of_mem words hu)
    exact this
  · rename_i hnil
    refine ⟨b2 ++ [p2], [], ?_, fun u hu => absurd hu (List.not_mem_nil u), ?_⟩
    · rw [← hacc]
      simp
    · exact List.rel_append hfa (List.Forall₂.cons
        ⟨by rw [words_pyStrip]; exact hw, hp hnil⟩ List.Forall₂.nil)

/-! ### C10: extract_document_id (the `$` anchor also accepts a trailing newline) -/

/-- C10 counterexample: a 20-character identifier followed by a newline is NOT
a string made entirely of ID characters, yet `extract_document_id` accepts it
(Python's `$` matches just before a trailing newline) instead of raising
`ValueError`. -/
theorem extract_id_cex :
    extract_document_id (List.replicate 20 'a' ++ ['\n']) =
      Except.ok (List.replicate 20 'a') := by
  rfl

theorem leadsWith_decomp : ∀ lit s : List Char, leadsWith lit s = true →
    s = lit ++ s.drop lit.length
  | [], s, _ => by simp
  | a :: as, [], h => by simp [leadsWith] at h
  | a :: as, b :: bs, h => by
    rw [leadsWith] at h
    split at h
    · rename_i hab
      subst hab
      have ih := leadsWith_decomp as bs h
      rw [List.length_cons, List.drop_succ_cons, List.cons_append]
      exact congrArg (a :: ·) ih
    · exact absurd h (by simp)

theorem leadsWith_refl_append : ∀ lit t : List Char, leadsWith lit (lit ++ t) = true
  | [], t => rfl
  | a :: as, t => by
    rw [List.cons_append, leadsWith, if_pos rfl]
    exact leadsWith_refl_append as t

theorem dropWhile_head_false (p : Char → Bool) : ∀ (l : List Char) (x : Char)
    (t : List Char), l.dropWhile p = x :: t → p x = false
  | [], x, t, h => by simp [List.dropWhile] at h
  | c :: r, x, t, h => by
    rw [List.dropWhile_cons] at h
    split at h
    · exact dropWhile_head_false p r x t h
    · rename_i hc
      obtain ⟨rfl, -⟩ := List.cons.injEq c r x t ▸ h
      exact Bool.not_eq_true (p c) ▸ hc

/-- Soundness of the URL scanner: a returned capture is a nonempty maximal
run of ID characters right after an occurrence of the literal. -/
theorem searchUrlId_sound (lit : List Char) : ∀ (s i : List Char),
    searchUrlId lit s = some i →
    i ≠ [] ∧ i.all isIdChar = true ∧
      ∃ pre rest, s = pre ++ lit ++ i ++ rest ∧
        (∀ c ∈ rest.take 1, isIdChar c = false)
  | [], i, h => by simp [searchUrlId] at h
  | c :: r, i, h => by
    rw [searchUrlId] at h
    split at h
    · rename_i hlw
      simp only [] at h
      split at h
      · obtain ⟨hne, hall, pre, rest, hsplit, hhead⟩ := searchUrlId_sound lit r i h
        exact ⟨hne, hall, c :: pre, rest, by rw [hsplit]; simp, hhead⟩
      · rename_i hcapne
        have hi : ((c :: r).drop lit.length).takeWhile isIdChar = i :=
          Option.some.inj h
        subst hi
        refine ⟨hcapne, List.all_eq_true.mpr fun x hx => List.mem_takeWhile_imp hx,
          [], ((c :: r).drop lit.length).dropWhile isIdChar, ?_, ?_⟩
        · rw [List.nil_append, List.append_assoc,
            List.takeWhile_append_dropWhile]
          exact leadsWith_decomp lit (c :: r) hlw
        · intro x hx
          cases hdw : ((c :: r).drop lit.length).dropWhile isIdChar with
          | nil =>
            rw [hdw] at hx
            exact absurd hx (List.not_mem_nil x)
          | cons y t =>
            rw [hdw] at hx
            simp at hx
            subst hx
            exact dropWhile_head_false isIdChar _ x t hdw
    · obtain ⟨hne, hall, pre, rest, hsplit, hhead⟩ := searchUrlId_sound lit r i h
      exact ⟨hne, hall, c :: pre, rest, by rw [hsplit]; simp, hhead⟩

/-- At an exact occurrence the scanner succeeds. -/
theorem searchUrlId_here (lit : List Char) (c : Char) (rest : List Char)
    (hc : isIdChar c = true) :
    ∃ i, searchUrlId lit (lit ++ c :: rest) = some i := by
  cases lit with
  | nil =>
    refine ⟨c :: rest.takeWhile isIdChar, ?_⟩
    rw [List.nil_append, searchUrlId,
      if_pos (show leadsWith [] (c :: rest) = true from rfl)]
    simp only [List.length_nil, List.drop_zero]
    rw [List.takeWhile_cons, if_pos hc, if_neg (by simp)]
  | cons a as =>
    refine ⟨c :: rest.takeWhile isIdChar, ?_⟩
    rw [List.cons_append, searchUrlId]
    have hlw : leadsWith (a :: as) (a :: (as ++ c :: rest)) = true := by
      have h := leadsWith_refl_append (a :: as) (c :: rest)
      rw [List.cons_append] at h
      exact h
    rw [if_pos hlw]
    simp only []
    have hdrop : (a :: (as ++ c :: rest)).drop (a :: as).length = c :: rest := by
      rw [List.length_cons, List.drop_succ_cons]
      exact drop_shift as (c :: rest)
    rw [hdrop, List.takeWhile_cons, if_pos hc, if_neg (by simp)]

/-- Anywhere an occurrence of the literal followed by an ID character exists,
the scanner succeeds. -/
theorem searchUrlId_contains (lit : List Char) : ∀ (pre : List Char) (c : Char)
    (rest s : List Char), s = pre ++ lit ++ c :: rest → isIdChar c = true →
    ∃ i, searchUrlId lit s = some i
  | [], c, rest, s, hs, hc => by
    rw [List.nil_append] at hs
    subst hs
    exact searchUrlId_here lit c rest hc
  | p0 :: pre', c, rest, s, hs, hc => by
    subst hs
    simp only [List.cons_append]
    rw [searchUrlId]
    split
    · simp only []
      split
      · exact searchUrlId_contains lit pre' c rest _ (by simp [List.append_assoc]) hc
      · exact ⟨_, rfl⟩
    · exact searchUrlId_contains lit pre' c rest _ (by simp [List.append_assoc]) hc

/-- If no occurrence exists the scanner returns `none`. -/
theorem searchUrlId_eq_none (lit s : List Char) (h : ¬ containsLitId lit s) :
    searchUrlId lit s = none := by
  cases hq : searchUrlId lit s with
  | none => rfl
  | some i =>
    exfalso
    obtain ⟨hne, hall, pre, rest, hsplit, -⟩ := searchUrlId_sound lit s i hq
    obtain ⟨c, i2, rfl⟩ := List.exists_cons_of_ne_nil hne
    refine h ⟨pre, c, i2 ++ rest, ?_, ?_⟩
    · rw [hsplit]
      simp
    · exact List.all_eq_true.mp hall c (List.mem_cons_self c i2)

/-- C10 amended: a docs or drive URL fragment with an identifier yields the
captured identifier; with no such fragment, a bare string is accepted exactly
when — after discarding at most one trailing newline (Python's `$` matches
before it) — it is 20 or more ID characters, returning that core; every other
input raises `ValueError`. -/
theorem extract_document_id_amended (s : List Char) :
    (containsLitId docsPat s →
      ∃ i, extract_document_id s = Except.ok i ∧ i ≠ [] ∧
        i.all isIdChar = true ∧
        ∃ pre rest, s = pre ++ docsPat ++ i ++ rest ∧
          (∀ c ∈ rest.take 1, isIdChar c = false)) ∧
    (¬ containsLitId docsPat s → containsLitId drivePat s →
      ∃ i, extract_document_id s = Except.ok i ∧ i ≠ [] ∧
        i.all isIdChar = true ∧
        ∃ pre rest, s = pre ++ drivePat ++ i ++ rest ∧
          (∀ c ∈ rest.take 1, isIdChar c = false)) ∧
    (¬ containsLitId docsPat s → ¬ containsLitId drivePat s →
      (20 ≤ (bareCore s).length ∧ (bareCore s).all isIdChar = true →
        extract_document_id s = Except.ok (bareCore s)) ∧
      (¬ (20 ≤ (bareCore s).length ∧ (bareCore s).all isIdChar = true) →
        extract_document_id s = Except.error "Could not extract document ID")) := by
  refine ⟨?_, ?_, ?_⟩
  · rintro ⟨pre, c, rest, hs, hc⟩
    obtain ⟨i, hi⟩ := searchUrlId_contains docsPat pre c rest s hs hc
    obtain ⟨hne, hall, pre2, rest2, hsplit, hhead⟩ := searchUrlId_sound docsPat s i hi
    refine ⟨i, ?_, hne, hall, pre2, rest2, hsplit, hhead⟩
    unfold extract_document_id
    rw [hi]
  · intro hnd
    rintro ⟨pre, c, rest, hs, hc⟩
    obtain ⟨i, hi⟩ := searchUrlId_contains drivePat pre c rest s hs hc
    obtain ⟨hne, hall, pre2, rest2, hsplit, hhead⟩ := searchUrlId_sound drivePat s i hi
    refine ⟨i, ?_, hne, hall, pre2, rest2, hsplit, hhead⟩
    unfold extract_document_id
    rw [searchUrlId_eq_none docsPat s hnd, hi]
  · intro hnd hnv
    have h1 := searchUrlId_eq_none docsPat s hnd
    have h2 := searchUrlId_eq_none drivePat s hnv
    constructor
    · intro hb
      unfold extract_document_id
      rw [h1, h2]
      unfold matchBareId
      rw [if_pos hb]
    · intro hb
      unfold extract_document_id
      rw [h1, h2]
      unfold matchBareId
      rw [if_neg hb]

/-- Witness for the amended C10 at the docstring's example URL. -/
theorem extract_document_id_amended_witness :
    ∃ i, extract_document_id
          (String.toList "https://docs.google.com/document/d/1abc123/edit") =
        Except.ok i ∧ i ≠ [] ∧ i.all isIdChar = true ∧
      ∃ pre rest,
        String.toList "https://docs.google.com/document/d/1abc123/edit" =
          pre ++ docsPat ++ i ++ rest ∧
        (∀ c ∈ rest.take 1, isIdChar c = false) :=
  (extract_document_id_amended
      (String.toList "https://docs.google.com/document/d/1abc123/edit")).1
    ⟨String.toList "https://", '1', String.toList "abc123/edit",
      by decide, by decide⟩
